import Mathlib

/-!
Verification of the signal-normalization and rank-history pipeline of the
`aistracker` application (`app.py`).

The pandas data model is embedded shallowly:

* a pandas `Series` with a month index becomes `Series`: a finite set of
  month keys together with a nullable rational value per month;
* a `DataFrame` becomes `Table`: finite month and column key sets with a
  nullable rational cell function; cells outside the key sets read as null;
* `NaN` is `Option.none`, numeric values are rationals.

The source computes `sd = s.std(ddof=0)`, the square root of the population
variance.  A square root is not rational-valued, so the embedding passes the
square-root function explicitly (`sqrtFn`) to `zscore_norm` and
`compute_scores`; the properties of a genuine square root that proofs need
(nonnegativity, vanishing at zero) appear as explicit hypotheses.
-/

namespace Aistracker

/-- Monthly time series of one tool: a finite set of month keys and a
nullable value for each month, mirroring a pandas `Series`. -/
structure Series where
  months : Finset ℕ
  val : ℕ → Option ℚ

/-- Value of the series at a month; months outside the index read as null. -/
def Series.cellAt (s : Series) (m : ℕ) : Option ℚ :=
  if m ∈ s.months then s.val m else none

/-- Elementwise map over the non-null entries, as pandas vectorised
arithmetic does (`NaN` propagates). -/
def Series.map (s : Series) (f : ℚ → ℚ) : Series :=
  ⟨s.months, fun m => (s.val m).map f⟩

/-- Months carrying a non-null observation (the index of `s.dropna()`). -/
def Series.obs (s : Series) : Finset ℕ :=
  s.months.filter (fun m => (Series.cellAt s m).isSome)

/-- Underlying numeric value at a month (months outside `obs` read as 0). -/
def Series.valAt (s : Series) (m : ℕ) : ℚ :=
  (Series.cellAt s m).getD 0

/-- Set of non-null values of the series. -/
def Series.valsF (s : Series) : Finset ℚ :=
  s.obs.image (Series.valAt s)

/-- Number of non-null observations. -/
def Series.obsCount (s : Series) : ℕ := s.obs.card

/-- Sum of the non-null observations. -/
def Series.total (s : Series) : ℚ := ∑ m in s.obs, Series.valAt s m

/-- Mean of the non-null observations (`s.mean()`, which skips `NaN`). -/
def Series.mean (s : Series) : ℚ := Series.total s / (Series.obsCount s : ℚ)

/-- Population variance of the non-null observations; `s.std(ddof=0)` is its
square root. -/
def Series.pvar (s : Series) : ℚ :=
  (∑ m in s.obs, (Series.valAt s m - Series.mean s) ^ 2) / (Series.obsCount s : ℚ)

lemma Series.cellAt_map (s : Series) (f : ℚ → ℚ) (m : ℕ) :
    (s.map f).cellAt m = (s.cellAt m).map f := by
  unfold Series.cellAt Series.map
  by_cases h : m ∈ s.months <;> simp [h]

lemma Series.obs_map (s : Series) (f : ℚ → ℚ) : (s.map f).obs = s.obs := by
  unfold Series.obs
  apply Finset.filter_congr
  intro m hm
  rw [Series.cellAt_map]
  cases s.cellAt m <;> simp

lemma Series.mem_obs_iff (s : Series) (m : ℕ) :
    m ∈ s.obs ↔ ∃ x, s.cellAt m = some x := by
  unfold Series.obs
  constructor
  · intro h
    rcases Finset.mem_filter.mp h with ⟨_, h2⟩
    cases hx : s.cellAt m with
    | none => rw [hx] at h2; cases h2
    | some x => exact ⟨x, rfl⟩
  · rintro ⟨x, hx⟩
    refine Finset.mem_filter.mpr ⟨?_, ?_⟩
    · unfold Series.cellAt at hx
      by_cases h : m ∈ s.months
      · exact h
      · simp [h] at hx
    · rw [hx]; rfl

lemma Series.cellAt_of_mem_obs (s : Series) (m : ℕ) (h : m ∈ s.obs) :
    s.cellAt m = some (s.valAt m) := by
  rcases (s.mem_obs_iff m).mp h with ⟨x, hx⟩
  unfold Series.valAt
  rw [hx]
  rfl

lemma Series.cellAt_of_obs_empty (s : Series) (m : ℕ) (h : s.obs = ∅) :
    s.cellAt m = none := by
  cases hx : s.cellAt m with
  | none => rfl
  | some x =>
    have : m ∈ s.obs := (s.mem_obs_iff m).mpr ⟨x, hx⟩
    rw [h] at this
    cases this

lemma Series.mem_valsF_of_cellAt (s : Series) (m : ℕ) (x : ℚ)
    (h : s.cellAt m = some x) : x ∈ s.valsF := by
  have hm : m ∈ s.obs := (s.mem_obs_iff m).mpr ⟨x, h⟩
  have hv : s.valAt m = x := by unfold Series.valAt; rw [h]; rfl
  exact hv ▸ Finset.mem_image_of_mem _ hm

lemma Series.valsF_nonempty (s : Series) (h : s.obs ≠ ∅) : s.valsF.Nonempty :=
  (Finset.nonempty_iff_ne_empty.mpr h).image _

lemma Series.valsF_map (s : Series) (f : ℚ → ℚ) :
    (s.map f).valsF = s.valsF.image f := by
  unfold Series.valsF
  rw [Series.obs_map, Finset.image_image]
  apply Finset.image_congr
  intro m hm
  show (s.map f).valAt m = f (s.valAt m)
  unfold Series.valAt
  rw [Series.cellAt_map]
  rw [Series.cellAt_of_mem_obs s m hm]
  rfl

/-- Min-max normalization of one series (`minmax_norm` in `app.py`):
return the series unchanged when it has no non-null value, an all-zero
(`s * 0`) series when max equals min, otherwise `(s - mn) / (mx - mn)`. -/
def minmax_norm (s : Series) : Series :=
  if h : s.obs = ∅ then s
  else if s.valsF.max' (s.valsF_nonempty h) = s.valsF.min' (s.valsF_nonempty h) then
    s.map (fun x => x * 0)
  else
    s.map (fun x =>
      (x - s.valsF.min' (s.valsF_nonempty h)) /
        (s.valsF.max' (s.valsF_nonempty h) - s.valsF.min' (s.valsF_nonempty h)))

/-- Z-score normalization of one series (`zscore_norm` in `app.py`):
return the series unchanged when it has no non-null value, an all-zero
(`s * 0`) series when the standard deviation `sqrtFn s.pvar` is zero,
otherwise `(s - mu) / sd`.  `sqrtFn` stands for the square root used by
`s.std(ddof=0)`. -/
def zscore_norm (sqrtFn : ℚ → ℚ) (s : Series) : Series :=
  if s.obs = ∅ then s
  else if sqrtFn s.pvar = 0 then s.map (fun x => x * 0)
  else s.map (fun x => (x - s.mean) / sqrtFn s.pvar)

lemma minmax_norm_of_obs_empty (s : Series) (h : s.obs = ∅) : minmax_norm s = s := by
  unfold minmax_norm
  rw [dif_pos h]

lemma minmax_norm_cellAt_of_const (s : Series) (c : ℚ) (h : s.obs ≠ ∅)
    (hc : ∀ m v, s.cellAt m = some v → v = c) (m : ℕ) :
    (minmax_norm s).cellAt m = (s.cellAt m).map (fun _ => 0) := by
  have hvals : ∀ x ∈ s.valsF, x = c := by
    intro x hx
    rcases Finset.mem_image.mp hx with ⟨m', hm', hv⟩
    exact hc m' x (hv ▸ s.cellAt_of_mem_obs m' hm')
  have hmx : s.valsF.max' (s.valsF_nonempty h) = s.valsF.min' (s.valsF_nonempty h) := by
    rw [hvals _ (s.valsF.max'_mem _), hvals _ (s.valsF.min'_mem _)]
  unfold minmax_norm
  rw [dif_neg h, if_pos hmx, Series.cellAt_map]
  cases s.cellAt m <;> simp

lemma minmax_norm_cellAt_of_ne (s : Series) (h : s.obs ≠ ∅)
    (hne : s.valsF.max' (s.valsF_nonempty h) ≠ s.valsF.min' (s.valsF_nonempty h)) (m : ℕ) :
    (minmax_norm s).cellAt m =
      (s.cellAt m).map (fun x =>
        (x - s.valsF.min' (s.valsF_nonempty h)) /
          (s.valsF.max' (s.valsF_nonempty h) - s.valsF.min' (s.valsF_nonempty h))) := by
  unfold minmax_norm
  rw [dif_neg h, if_neg hne, Series.cellAt_map]

lemma minmax_norm_range (s : Series) (m : ℕ) (x : ℚ)
    (h : (minmax_norm s).cellAt m = some x) : 0 ≤ x ∧ x ≤ 1 := by
  by_cases he : s.obs = ∅
  · rw [minmax_norm_of_obs_empty s he, s.cellAt_of_obs_empty m he] at h
    cases h
  · by_cases hmx : s.valsF.max' (s.valsF_nonempty he) = s.valsF.min' (s.valsF_nonempty he)
    · unfold minmax_norm at h
      rw [dif_neg he, if_pos hmx, Series.cellAt_map] at h
      cases hy : s.cellAt m with
      | none => rw [hy] at h; cases h
      | some y =>
        rw [hy] at h
        have : y * 0 = x := by injection h
        constructor <;> rw [← this] <;> norm_num
    · rw [minmax_norm_cellAt_of_ne s he hmx m] at h
      cases hy : s.cellAt m with
      | none => rw [hy] at h; cases h
      | some y =>
        rw [hy] at h
        have hx : (y - s.valsF.min' (s.valsF_nonempty he)) /
            (s.valsF.max' (s.valsF_nonempty he) - s.valsF.min' (s.valsF_nonempty he)) = x := by
          injection h
        have hymem : y ∈ s.valsF := s.mem_valsF_of_cellAt m y hy
        have h1 : s.valsF.min' (s.valsF_nonempty he) ≤ y := Finset.min'_le _ _ hymem
        have h2 : y ≤ s.valsF.max' (s.valsF_nonempty he) := Finset.le_max' _ _ hymem
        have h3 : s.valsF.min' (s.valsF_nonempty he) ≤ s.valsF.max' (s.valsF_nonempty he) :=
          Finset.min'_le _ _ (s.valsF.max'_mem _)
        have h4 : (0 : ℚ) < s.valsF.max' (s.valsF_nonempty he) - s.valsF.min' (s.valsF_nonempty he) := by
          have := lt_of_le_of_ne h3 (Ne.symm hmx)
          linarith
        constructor
        · rw [← hx]
          apply div_nonneg (by linarith) (le_of_lt h4)
        · rw [← hx]
          rw [div_le_one h4]
          linarith

lemma Series.max'_ne_min' (s : Series) (h : s.obs ≠ ∅) (x y : ℚ)
    (hx : x ∈ s.valsF) (hy : y ∈ s.valsF) (hxy : x ≠ y) :
    s.valsF.max' (s.valsF_nonempty h) ≠ s.valsF.min' (s.valsF_nonempty h) := by
  intro heq
  apply hxy
  have bx1 := Finset.min'_le _ _ hx
  have bx2 := Finset.le_max' _ _ hx
  have by1 := Finset.min'_le _ _ hy
  have by2 := Finset.le_max' _ _ hy
  rw [heq] at bx2 by2
  exact le_antisymm (le_trans bx2 by1) (le_trans by2 bx1)

lemma minmax_norm_cellAt_max (s : Series) (h : s.obs ≠ ∅)
    (hne : s.valsF.max' (s.valsF_nonempty h) ≠ s.valsF.min' (s.valsF_nonempty h))
    (m : ℕ) (v : ℚ) (hv : s.cellAt m = some v) (hmax : ∀ u ∈ s.valsF, u ≤ v) :
    (minmax_norm s).cellAt m = some 1 := by
  rw [minmax_norm_cellAt_of_ne s h hne m, hv]
  have hvm : v ∈ s.valsF := s.mem_valsF_of_cellAt m v hv
  have hveq : v = s.valsF.max' (s.valsF_nonempty h) :=
    le_antisymm (Finset.le_max' _ _ hvm) (hmax _ (s.valsF.max'_mem _))
  have hd : s.valsF.max' (s.valsF_nonempty h) - s.valsF.min' (s.valsF_nonempty h) ≠ 0 :=
    sub_ne_zero.mpr hne
  simp only [Option.map_some', hveq, div_self hd]

lemma minmax_norm_cellAt_min (s : Series) (h : s.obs ≠ ∅)
    (hne : s.valsF.max' (s.valsF_nonempty h) ≠ s.valsF.min' (s.valsF_nonempty h))
    (m : ℕ) (v : ℚ) (hv : s.cellAt m = some v) (hmin : ∀ u ∈ s.valsF, v ≤ u) :
    (minmax_norm s).cellAt m = some 0 := by
  rw [minmax_norm_cellAt_of_ne s h hne m, hv]
  have hvm : v ∈ s.valsF := s.mem_valsF_of_cellAt m v hv
  have hveq : v = s.valsF.min' (s.valsF_nonempty h) :=
    le_antisymm (hmin _ (s.valsF.min'_mem _)) (Finset.min'_le _ _ hvm)
  simp only [Option.map_some', hveq, sub_self, zero_div]

lemma zscore_norm_of_obs_empty (sqrtFn : ℚ → ℚ) (s : Series) (h : s.obs = ∅) :
    zscore_norm sqrtFn s = s := by
  unfold zscore_norm
  rw [if_pos h]

lemma zscore_norm_cellAt_of_sd_zero (sqrtFn : ℚ → ℚ) (s : Series) (h : s.obs ≠ ∅)
    (h0 : sqrtFn s.pvar = 0) (m : ℕ) :
    (zscore_norm sqrtFn s).cellAt m = (s.cellAt m).map (fun _ => 0) := by
  unfold zscore_norm
  rw [if_neg h, if_pos h0, Series.cellAt_map]
  cases s.cellAt m <;> simp

lemma zscore_norm_eq_map (sqrtFn : ℚ → ℚ) (s : Series) (h : s.obs ≠ ∅)
    (h0 : sqrtFn s.pvar ≠ 0) :
    zscore_norm sqrtFn s = s.map (fun x => (x - s.mean) / sqrtFn s.pvar) := by
  unfold zscore_norm
  rw [if_neg h, if_neg h0]

lemma minmax_zscore_cellAt (sqrtFn : ℚ → ℚ) (s : Series)
    (hnn : 0 ≤ sqrtFn s.pvar) (hnz : sqrtFn s.pvar ≠ 0) (m : ℕ) :
    (minmax_norm (zscore_norm sqrtFn s)).cellAt m = (minmax_norm s).cellAt m := by
  by_cases he : s.obs = ∅
  · rw [zscore_norm_of_obs_empty sqrtFn s he]
  · have hsd : 0 < sqrtFn s.pvar := lt_of_le_of_ne hnn (Ne.symm hnz)
    have hzs : zscore_norm sqrtFn s = s.map (fun x => (x - s.mean) / sqrtFn s.pvar) :=
      zscore_norm_eq_map sqrtFn s he hnz
    have hmono : StrictMono (fun x => (x - s.mean) / sqrtFn s.pvar) := by
      intro a b hab
      exact (div_lt_div_iff_of_pos_right hsd).mpr (by linarith)
    have hobs : (zscore_norm sqrtFn s).obs = s.obs := by
      rw [hzs]; exact s.obs_map _
    have hobs' : (zscore_norm sqrtFn s).obs ≠ ∅ := by rw [hobs]; exact he
    have hvals : (zscore_norm sqrtFn s).valsF = s.valsF.image
        (fun x => (x - s.mean) / sqrtFn s.pvar) := by
      rw [hzs]; exact s.valsF_map _
    have keymin : ∀ h1 : ((zscore_norm sqrtFn s).valsF).Nonempty,
        (zscore_norm sqrtFn s).valsF.min' h1 =
          (s.valsF.min' (s.valsF_nonempty he) - s.mean) / sqrtFn s.pvar := by
      rw [hvals]
      intro h1
      rw [Finset.min'_image hmono.monotone]
    have keymax : ∀ h1 : ((zscore_norm sqrtFn s).valsF).Nonempty,
        (zscore_norm sqrtFn s).valsF.max' h1 =
          (s.valsF.max' (s.valsF_nonempty he) - s.mean) / sqrtFn s.pvar := by
      rw [hvals]
      intro h1
      rw [Finset.max'_image hmono.monotone]
    by_cases hcon : s.valsF.max' (s.valsF_nonempty he) = s.valsF.min' (s.valsF_nonempty he)
    · have hcon' : (zscore_norm sqrtFn s).valsF.max'
          ((zscore_norm sqrtFn s).valsF_nonempty hobs') =
          (zscore_norm sqrtFn s).valsF.min'
            ((zscore_norm sqrtFn s).valsF_nonempty hobs') := by
        rw [keymin _, keymax _, hcon]
      have hzcell : ∀ k, (zscore_norm sqrtFn s).cellAt k =
          (s.cellAt k).map (fun x => (x - s.mean) / sqrtFn s.pvar) := by
        intro k; rw [hzs]; exact s.cellAt_map _ k
      have hzconst : ∀ k v, (zscore_norm sqrtFn s).cellAt k = some v →
          v = (s.valsF.min' (s.valsF_nonempty he) - s.mean) / sqrtFn s.pvar := by
        intro k v hk
        rw [hzcell k] at hk
        cases hx : s.cellAt k with
        | none => rw [hx] at hk; cases hk
        | some x =>
          rw [hx] at hk
          have hxv : (x - s.mean) / sqrtFn s.pvar = v := by injection hk
          have hxm : x ∈ s.valsF := s.mem_valsF_of_cellAt k x hx
          have hx1 : s.valsF.min' (s.valsF_nonempty he) ≤ x := Finset.min'_le _ _ hxm
          have hx2 : x ≤ s.valsF.max' (s.valsF_nonempty he) := Finset.le_max' _ _ hxm
          rw [hcon] at hx2
          have : x = s.valsF.min' (s.valsF_nonempty he) := le_antisymm hx2 hx1
          rw [← hxv, this]
      have L := minmax_norm_cellAt_of_const (zscore_norm sqrtFn s)
        ((s.valsF.min' (s.valsF_nonempty he) - s.mean) / sqrtFn s.pvar) hobs' hzconst m
      have R := minmax_norm_cellAt_of_const s (s.valsF.min' (s.valsF_nonempty he)) he
        (by
          intro k v hk
          have hxm : v ∈ s.valsF := s.mem_valsF_of_cellAt k v hk
          have hx1 : s.valsF.min' (s.valsF_nonempty he) ≤ v := Finset.min'_le _ _ hxm
          have hx2 : v ≤ s.valsF.max' (s.valsF_nonempty he) := Finset.le_max' _ _ hxm
          rw [hcon] at hx2
          exact le_antisymm hx2 hx1) m
      rw [L, R, hzcell m]
      cases s.cellAt m <;> simp
    · have hcon' : (zscore_norm sqrtFn s).valsF.max'
          ((zscore_norm sqrtFn s).valsF_nonempty hobs') ≠
          (zscore_norm sqrtFn s).valsF.min'
            ((zscore_norm sqrtFn s).valsF_nonempty hobs') := by
        rw [keymin _, keymax _]
        intro hc
        exact hcon (hmono.injective hc)
      rw [minmax_norm_cellAt_of_ne _ hobs' hcon' m,
        minmax_norm_cellAt_of_ne s he hcon m]
      rw [keymin _, keymax _, hzs, Series.cellAt_map]
      cases hx : s.cellAt m with
      | none => rfl
      | some x =>
        simp only [Option.map_some']
        congr 1
        rw [div_sub_div_same, div_sub_div_same]
        have e1 : x - s.mean - (s.valsF.min' (s.valsF_nonempty he) - s.mean)
            = x - s.valsF.min' (s.valsF_nonempty he) := by ring
        have e2 : s.valsF.max' (s.valsF_nonempty he) - s.mean -
            (s.valsF.min' (s.valsF_nonempty he) - s.mean)
            = s.valsF.max' (s.valsF_nonempty he) - s.valsF.min' (s.valsF_nonempty he) := by
          ring
        rw [e1, e2, div_div_div_cancel_right₀ hnz]

/-- Tabular monthly data, mirroring a pandas `DataFrame`: finite month and
column key sets with a nullable rational value per cell.  Cells outside the
key sets read as null. -/
@[ext]
structure Table where
  months : Finset ℕ
  cols : Finset String
  cell : ℕ → String → Option ℚ

/-- Cell of the table at a month and column; keys outside the index or the
column set read as null. -/
def Table.cellAt (df : Table) (m : ℕ) (t : String) : Option ℚ :=
  if m ∈ df.months ∧ t ∈ df.cols then df.cell m t else none

/-- pandas `df.empty`: true when some axis has length zero. -/
def Table.isEmpty (df : Table) : Bool :=
  decide (df.months = ∅) || decide (df.cols = ∅)

/-- One tool's column as a series over the table's month index (`df[t]`). -/
def Table.col (df : Table) (t : String) : Series :=
  ⟨df.months, fun m => Table.cellAt df m t⟩

/-- merge_history from `app.py`: `history.combine_first(new_df)` followed by
`merged[col].update(new_df[col])` for every column of `new_df`.  If the
history is empty the fresh table is returned unchanged; otherwise the result
is indexed by the union of the key sets, a non-null fresh cell wins, and
otherwise the history cell is kept. -/
def merge_history (history new_df : Table) : Table :=
  if history.isEmpty then new_df
  else
    ⟨history.months ∪ new_df.months, history.cols ∪ new_df.cols,
      fun m t =>
        match Table.cellAt new_df m t with
        | some v => some v
        | none => Table.cellAt history m t⟩

lemma Table.cellAt_mk (A : Finset ℕ) (B : Finset String) (f : ℕ → String → Option ℚ)
    (m : ℕ) (t : String) :
    (Table.mk A B f).cellAt m t = if m ∈ A ∧ t ∈ B then f m t else none := rfl

lemma Table.mem_of_cellAt_some (df : Table) (m : ℕ) (t : String) (v : ℚ)
    (h : df.cellAt m t = some v) : m ∈ df.months ∧ t ∈ df.cols := by
  unfold Table.cellAt at h
  by_cases hm : m ∈ df.months ∧ t ∈ df.cols
  · exact hm
  · rw [if_neg hm] at h; cases h

lemma Table.cellAt_of_isEmpty (df : Table) (h : df.isEmpty = true) (m : ℕ) (t : String) :
    df.cellAt m t = none := by
  unfold Table.isEmpty at h
  unfold Table.cellAt
  rcases Bool.or_eq_true_iff.mp h with h1 | h1
  · rw [if_neg]
    intro hc
    rw [of_decide_eq_true h1] at hc
    exact absurd hc.1 (Finset.not_mem_empty m)
  · rw [if_neg]
    intro hc
    rw [of_decide_eq_true h1] at hc
    exact absurd hc.2 (Finset.not_mem_empty t)

lemma merge_history_eq_of_ne (H F : Table) (hE : ¬ H.isEmpty = true) :
    merge_history H F =
      ⟨H.months ∪ F.months, H.cols ∪ F.cols,
        fun m t =>
          match Table.cellAt F m t with
          | some v => some v
          | none => Table.cellAt H m t⟩ := by
  unfold merge_history
  rw [if_neg hE]

lemma merge_history_cellAt (H F : Table) (m : ℕ) (t : String) :
    (merge_history H F).cellAt m t =
      match F.cellAt m t with
      | some v => some v
      | none => H.cellAt m t := by
  by_cases hE : H.isEmpty = true
  · unfold merge_history
    rw [if_pos hE, Table.cellAt_of_isEmpty H hE]
    cases hF : F.cellAt m t <;> rfl
  · rw [merge_history_eq_of_ne H F hE, Table.cellAt_mk]
    cases hF : F.cellAt m t with
    | some v =>
      obtain ⟨h1, h2⟩ := F.mem_of_cellAt_some m t v hF
      rw [if_pos ⟨Finset.mem_union_right _ h1, Finset.mem_union_right _ h2⟩]
    | none =>
      cases hH : H.cellAt m t with
      | some w =>
        obtain ⟨h1, h2⟩ := H.mem_of_cellAt_some m t w hH
        rw [if_pos ⟨Finset.mem_union_left _ h1, Finset.mem_union_left _ h2⟩]
      | none =>
        by_cases hm : m ∈ H.months ∪ F.months ∧ t ∈ H.cols ∪ F.cols
        · rw [if_pos hm]
        · rw [if_neg hm]

/-- compute_scores from `app.py`: over the union of the two tables' months
and columns, the score is
`w_trends * trends_norm.fillna(0) + w_wiki * wiki_norm.fillna(0)` where
`trends_norm[t] = minmax_norm(trends_df[t])` for columns of `trends_df` and
`wiki_norm[t] = minmax_norm(zscore_norm(wiki_df[t]))` for columns of
`wiki_df`; a column absent from a source stays all-null there and `fillna`
turns every null into 0. -/
def compute_scores (sqrtFn : ℚ → ℚ) (trends_df wiki_df : Table)
    (w_trends w_wiki : ℚ) : Table :=
  ⟨trends_df.months ∪ wiki_df.months, trends_df.cols ∪ wiki_df.cols,
    fun m t =>
      some
        (w_trends *
            (if t ∈ trends_df.cols then
              ((minmax_norm (trends_df.col t)).cellAt m).getD 0
            else 0) +
          w_wiki *
            (if t ∈ wiki_df.cols then
              ((minmax_norm (zscore_norm sqrtFn (wiki_df.col t))).cellAt m).getD 0
            else 0))⟩

/-- Per-category rank history: month index, the category's column list in
category order, and a nullable integer rank per cell (pandas nullable
`Int64` after `.round(0).astype`). -/
structure RankTable where
  months : Finset ℕ
  cols : List String
  cell : ℕ → String → Option ℕ

/-- Cell of the rank table; keys outside the index or column list read as
null. -/
def RankTable.cellAt (r : RankTable) (m : ℕ) (t : String) : Option ℕ :=
  if m ∈ r.months ∧ t ∈ r.cols then r.cell m t else none

/-- Distinct non-null score values appearing in one month's row over the
given columns. -/
def rowVals (score_hist : Table) (cols : List String) (m : ℕ) : Finset ℚ :=
  (cols.filterMap (fun t => Table.cellAt score_hist m t)).toFinset

/-- Dense rank of a score inside a row whose distinct non-null value set is
`vals`: `(-row).rank(method="dense")` assigns 1 plus the number of distinct
strictly greater scores. -/
def denseRank (vals : Finset ℚ) (v : ℚ) : ℕ :=
  1 + (vals.filter (fun w => v < w)).card

/-- Rank table of one category (`app.py` lines 266-279): restrict the score
table to the category's tools present among its columns (category order
kept); an empty restriction yields an empty table; otherwise every month row
is dense-ranked on the negated score, nulls staying null. -/
def rank_category (score_hist : Table) (tools : List String) : RankTable :=
  if tools.filter (fun t => decide (t ∈ score_hist.cols)) = [] then
    ⟨∅, [], fun _ _ => none⟩
  else
    ⟨score_hist.months, tools.filter (fun t => decide (t ∈ score_hist.cols)),
      fun m t =>
        (Table.cellAt score_hist m t).map
          (fun v =>
            denseRank
              (rowVals score_hist
                (tools.filter (fun t2 => decide (t2 ∈ score_hist.cols))) m) v)⟩

/-- build_rank_history from `app.py`: empty output for an empty score table,
otherwise one rank table per category. -/
def build_rank_history (score_hist : Table)
    (categories : List (String × List String)) : List (String × RankTable) :=
  if score_hist.isEmpty then []
  else categories.map (fun p => (p.1, rank_category score_hist p.2))

/-- Properties of a category's rank table claimed by the spec: null scores
rank null; equal scores share one rank; the (weak) maximum score ranks 1;
the next distinct lower score gets the immediately following integer. -/
def RankProps (S : Table) (tools : List String) (R : RankTable) : Prop :=
  (∀ m t, Table.cellAt S m t = none → RankTable.cellAt R m t = none) ∧
  (∀ m t1 t2 v, t1 ∈ tools → t2 ∈ tools → Table.cellAt S m t1 = some v →
    Table.cellAt S m t2 = some v →
    RankTable.cellAt R m t1 = RankTable.cellAt R m t2 ∧
      (RankTable.cellAt R m t1).isSome = true) ∧
  (∀ m t v, t ∈ tools → Table.cellAt S m t = some v →
    (∀ t2 w, t2 ∈ tools → Table.cellAt S m t2 = some w → w ≤ v) →
    RankTable.cellAt R m t = some 1) ∧
  (∀ m t1 t2 v1 v2 r, t1 ∈ tools → t2 ∈ tools →
    Table.cellAt S m t1 = some v1 → Table.cellAt S m t2 = some v2 → v2 < v1 →
    (∀ t3 w, t3 ∈ tools → Table.cellAt S m t3 = some w → ¬(v2 < w ∧ w < v1)) →
    RankTable.cellAt R m t1 = some r → RankTable.cellAt R m t2 = some (r + 1))

lemma mem_rowVals (S : Table) (cols : List String) (m : ℕ) (w : ℚ) :
    w ∈ rowVals S cols m ↔ ∃ t ∈ cols, Table.cellAt S m t = some w := by
  unfold rowVals
  rw [List.mem_toFinset, List.mem_filterMap]

lemma rank_category_cellAt (S : Table) (tools : List String) (m : ℕ) (t : String)
    (hm : m ∈ S.months) (ht : t ∈ tools.filter (fun t2 => decide (t2 ∈ S.cols))) :
    (rank_category S tools).cellAt m t =
      (Table.cellAt S m t).map
        (fun v =>
          denseRank
            (rowVals S (tools.filter (fun t2 => decide (t2 ∈ S.cols))) m) v) := by
  unfold rank_category
  rw [if_neg (List.ne_nil_of_mem ht)]
  unfold RankTable.cellAt
  rw [if_pos ⟨hm, ht⟩]

lemma rank_category_props (S : Table) (tools : List String) :
    RankProps S tools (rank_category S tools) := by
  refine ⟨?_, ?_, ?_, ?_⟩
  · intro m t h
    by_cases hnil : tools.filter (fun t2 => decide (t2 ∈ S.cols)) = []
    · unfold rank_category
      rw [if_pos hnil]
      unfold RankTable.cellAt
      rw [if_neg]
      intro hc
      exact absurd hc.1 (Finset.not_mem_empty m)
    · unfold rank_category
      rw [if_neg hnil]
      unfold RankTable.cellAt
      by_cases hc : m ∈ S.months ∧ t ∈ tools.filter (fun t2 => decide (t2 ∈ S.cols))
      · rw [if_pos hc]
        show (Table.cellAt S m t).map _ = none
        rw [h]
        rfl
      · rw [if_neg hc]
  · intro m t1 t2 v h1 h2 hv1 hv2
    obtain ⟨hm1, hc1⟩ := S.mem_of_cellAt_some m t1 v hv1
    obtain ⟨hm2, hc2⟩ := S.mem_of_cellAt_some m t2 v hv2
    have ht1 : t1 ∈ tools.filter (fun t2 => decide (t2 ∈ S.cols)) :=
      List.mem_filter.mpr ⟨h1, by simpa using hc1⟩
    have ht2 : t2 ∈ tools.filter (fun t2 => decide (t2 ∈ S.cols)) :=
      List.mem_filter.mpr ⟨h2, by simpa using hc2⟩
    rw [rank_category_cellAt S tools m t1 hm1 ht1,
      rank_category_cellAt S tools m t2 hm2 ht2, hv1, hv2]
    exact ⟨rfl, rfl⟩
  · intro m t v ht hv hmax
    obtain ⟨hm1, hc1⟩ := S.mem_of_cellAt_some m t v hv
    have ht1 : t ∈ tools.filter (fun t2 => decide (t2 ∈ S.cols)) :=
      List.mem_filter.mpr ⟨ht, by simpa using hc1⟩
    rw [rank_category_cellAt S tools m t hm1 ht1, hv]
    have hemp : (rowVals S (tools.filter (fun t2 => decide (t2 ∈ S.cols))) m).filter
        (fun w => v < w) = ∅ := by
      rw [Finset.filter_eq_empty_iff]
      intro w hw
      rcases (mem_rowVals S _ m w).mp hw with ⟨t3, ht3, hw3⟩
      have ht3' : t3 ∈ tools := (List.mem_filter.mp ht3).1
      exact not_lt_of_le (hmax t3 w ht3' hw3)
    show some (denseRank _ v) = some 1
    unfold denseRank
    rw [hemp]
    rfl
  · intro m t1 t2 v1 v2 r h1 h2 hv1 hv2 hlt hbetween hr
    obtain ⟨hm1, hc1⟩ := S.mem_of_cellAt_some m t1 v1 hv1
    obtain ⟨hm2, hc2⟩ := S.mem_of_cellAt_some m t2 v2 hv2
    have ht1 : t1 ∈ tools.filter (fun t2 => decide (t2 ∈ S.cols)) :=
      List.mem_filter.mpr ⟨h1, by simpa using hc1⟩
    have ht2 : t2 ∈ tools.filter (fun t2 => decide (t2 ∈ S.cols)) :=
      List.mem_filter.mpr ⟨h2, by simpa using hc2⟩
    rw [rank_category_cellAt S tools m t1 hm1 ht1, hv1] at hr
    rw [rank_category_cellAt S tools m t2 hm2 ht2, hv2]
    have hrv : denseRank
        (rowVals S (tools.filter (fun t2 => decide (t2 ∈ S.cols))) m) v1 = r := by
      injection hr
    have hv1mem : v1 ∈ rowVals S (tools.filter (fun t2 => decide (t2 ∈ S.cols))) m :=
      (mem_rowVals S _ m v1).mpr ⟨t1, ht1, hv1⟩
    have hins : (rowVals S (tools.filter (fun t2 => decide (t2 ∈ S.cols))) m).filter
          (fun w => v2 < w) =
        insert v1
          ((rowVals S (tools.filter (fun t2 => decide (t2 ∈ S.cols))) m).filter
            (fun w => v1 < w)) := by
      apply Finset.ext
      intro w
      rw [Finset.mem_filter, Finset.mem_insert, Finset.mem_filter]
      constructor
      · rintro ⟨hwrv, hw2⟩
        rcases (mem_rowVals S _ m w).mp hwrv with ⟨t3, ht3, hw3⟩
        have ht3' : t3 ∈ tools := (List.mem_filter.mp ht3).1
        have := hbetween t3 w ht3' hw3
        by_cases hw1 : w < v1
        · exact absurd ⟨hw2, hw1⟩ this
        · rcases eq_or_lt_of_le (not_lt.mp hw1) with heq | hgt
          · exact Or.inl heq.symm
          · exact Or.inr ⟨hwrv, hgt⟩
      · rintro (heq | ⟨hwrv, hw1⟩)
        · exact ⟨heq ▸ hv1mem, heq ▸ hlt⟩
        · exact ⟨hwrv, lt_trans hlt hw1⟩
    show some (denseRank _ v2) = some (r + 1)
    unfold denseRank
    rw [hins, Finset.card_insert_of_not_mem (by
      rw [Finset.mem_filter]
      rintro ⟨_, hc⟩
      exact lt_irrefl v1 hc)]
    rw [← hrv]
    unfold denseRank
    congr 1

/-- Stable insertion of an element into a list: `x` is placed in front of
the first element `y` with `le x y`. -/
def sInsert {α : Type} (le : α → α → Bool) (x : α) : List α → List α
  | [] => [x]
  | y :: ys => if le x y then x :: y :: ys else y :: sInsert le x ys

/-- Stable insertion sort.  It models the library sort behind
`sort_values` on the small per-category rows of this application, where
tied keys keep their original order. -/
def sSort {α : Type} (le : α → α → Bool) (l : List α) : List α :=
  l.foldr (sInsert le) []

lemma sInsert_perm {α : Type} (le : α → α → Bool) (x : α) (s : List α) :
    List.Perm (sInsert le x s) (x :: s) := by
  induction s with
  | nil => exact List.Perm.refl _
  | cons y ys ih =>
    unfold sInsert
    by_cases h : le x y
    · rw [if_pos h]
    · rw [if_neg h]
      exact (ih.cons y).trans (List.Perm.swap x y ys)

lemma sSort_perm {α : Type} (le : α → α → Bool) (l : List α) : List.Perm (sSort le l) l := by
  induction l with
  | nil => exact List.Perm.refl _
  | cons a l ih =>
    exact (sInsert_perm le a (sSort le l)).trans (ih.cons a)

lemma sInsert_pairwise {α : Type} (le : α → α → Bool)
    (htot : ∀ a b, le a b = true ∨ le b a = true)
    (htrans : ∀ a b c, le a b = true → le b c = true → le a c = true)
    (x : α) (s : List α) (hs : s.Pairwise (fun a b => le a b = true)) :
    (sInsert le x s).Pairwise (fun a b => le a b = true) := by
  induction s with
  | nil => simp [sInsert]
  | cons y ys ih =>
    rw [List.pairwise_cons] at hs
    obtain ⟨hy, hys⟩ := hs
    unfold sInsert
    by_cases h : le x y
    · rw [if_pos h]
      refine List.pairwise_cons.mpr ⟨?_, List.pairwise_cons.mpr ⟨hy, hys⟩⟩
      intro b hb
      rcases List.mem_cons.mp hb with hb | hb
      · rw [hb]; exact h
      · exact htrans x y b h (hy b hb)
    · rw [if_neg h]
      have hyx : le y x = true := by
        rcases htot x y with hc | hc
        · exact absurd hc (by simpa using h)
        · exact hc
      refine List.pairwise_cons.mpr ⟨?_, ih hys⟩
      intro b hb
      rcases List.mem_cons.mp ((sInsert_perm le x ys).mem_iff.mp hb) with hb2 | hb2
      · rw [hb2]; exact hyx
      · exact hy b hb2

lemma sSort_pairwise {α : Type} (le : α → α → Bool)
    (htot : ∀ a b, le a b = true ∨ le b a = true)
    (htrans : ∀ a b c, le a b = true → le b c = true → le a c = true)
    (l : List α) : (sSort le l).Pairwise (fun a b => le a b = true) := by
  induction l with
  | nil => simp [sSort]
  | cons a l ih => exact sInsert_pairwise le htot htrans a (sSort le l) ih

lemma sInsert_filter_pos {α : Type} (le : α → α → Bool) (p : α → Bool) (x : α)
    (s : List α) (hpx : p x = true) (hp : ∀ y, p y = true → le x y = true) :
    (sInsert le x s).filter p = x :: s.filter p := by
  induction s with
  | nil => simp [sInsert, hpx]
  | cons y ys ih =>
    unfold sInsert
    by_cases h : le x y
    · rw [if_pos h, List.filter_cons_of_pos hpx]
    · rw [if_neg h]
      have hpy : p y = false := by
        cases hc : p y
        · rfl
        · exact absurd (hp y hc) (by simpa using h)
      rw [List.filter_cons_of_neg (by simp [hpy]), ih,
        List.filter_cons_of_neg (by simp [hpy])]

lemma sInsert_filter_neg {α : Type} (le : α → α → Bool) (p : α → Bool) (x : α)
    (s : List α) (hpx : p x = false) :
    (sInsert le x s).filter p = s.filter p := by
  induction s with
  | nil => simp [sInsert, hpx]
  | cons y ys ih =>
    unfold sInsert
    by_cases h : le x y
    · rw [if_pos h, List.filter_cons_of_neg (by simp [hpx])]
    · rw [if_neg h]
      cases hpy : p y
      · rw [List.filter_cons_of_neg (by simp [hpy]), ih,
          List.filter_cons_of_neg (by simp [hpy])]
      · rw [List.filter_cons_of_pos hpy, ih, List.filter_cons_of_pos hpy]

lemma sSort_filter {α : Type} (le : α → α → Bool) (p : α → Bool)
    (hp : ∀ a b, p a = true → p b = true → le a b = true) (l : List α) :
    (sSort le l).filter p = l.filter p := by
  induction l with
  | nil => rfl
  | cons a l ih =>
    show (sInsert le a (sSort le l)).filter p = (a :: l).filter p
    cases hpa : p a
    · rw [sInsert_filter_neg le p a _ hpa, ih, List.filter_cons_of_neg (by simp [hpa])]
    · rw [sInsert_filter_pos le p a _ hpa (fun y hy => hp a y hpa hy), ih,
        List.filter_cons_of_pos hpa]

/-- Ascending comparison on (tool, rank) pairs used by the rank-history
view's `sort_values()`. -/
def ascRank (a b : String × ℕ) : Bool := decide (a.2 ≤ b.2)

/-- Descending comparison on (tool, score) pairs used by the leaderboard's
`sort_values(ascending=False)`. -/
def descScore (a b : String × ℚ) : Bool := decide (b.2 ≤ a.2)

/-- Latest month's non-null (tool, rank) pairs of a rank table in column
order: `rdf.iloc[-1].dropna()` (the table is kept sorted by month, so the
last row is the maximal month). -/
def latestObs (r : RankTable) (lm : ℕ) : List (String × ℕ) :=
  r.cols.filterMap (fun t => (RankTable.cellAt r lm t).map (fun v => (t, v)))

/-- Top-K selection of the rank-history view (`app.py` lines 412-413): sort
the latest month's non-null ranks ascending and keep the first K tools. -/
def topk_tools (r : RankTable) (k : ℕ) : List String :=
  match r.months.max with
  | none => []
  | some lm => ((sSort ascRank (latestObs r lm)).map Prod.fst).take k

/-- Category columns of the leaderboard:
`score_hist.columns.intersection(tools)`, where the score table's columns
are sorted tool names (`compute_scores` sorts them) and `intersection`
keeps the caller's order. -/
def lbCols (df : Table) (tools : List String) : List String :=
  (df.cols.sort (· ≤ ·)).filter (fun t => decide (t ∈ tools))

/-- Latest-month leaderboard row after `sort_values(ascending=False)`:
scored tools in stable descending score order followed by the null-score
tools in column order (`na_position="last"`). -/
def lbRow (score_hist : Table) (tools : List String) (latest : ℕ) :
    List (String × Option ℚ) :=
  (sSort descScore
      ((lbCols score_hist tools).filterMap
        (fun t => (Table.cellAt score_hist latest t).map (fun v => (t, v))))).map
    (fun p => (p.1, some p.2)) ++
  ((lbCols score_hist tools).filter
      (fun t => decide (Table.cellAt score_hist latest t = none))).map
    (fun t => (t, (none : Option ℚ)))

/-- Leaderboard of one category (`app.py` lines 376-387): take the most
recent month of the score table, restrict to the category's columns, sort
by descending score, attach display ranks 1..N by position and truncate to
the top N. -/
def leaderboard (score_hist : Table) (tools : List String) (top_n : ℕ) :
    List (ℕ × String × Option ℚ) :=
  match score_hist.months.max with
  | none => []
  | some latest =>
    (((List.range (lbRow score_hist tools latest).length).zip
          (lbRow score_hist tools latest)).map
        (fun p => (p.1 + 1, p.2))).take top_n

lemma mem_latestObs (r : RankTable) (lm : ℕ) (t : String) (v : ℕ) :
    (t, v) ∈ latestObs r lm ↔ t ∈ r.cols ∧ RankTable.cellAt r lm t = some v := by
  unfold latestObs
  rw [List.mem_filterMap]
  constructor
  · rintro ⟨a, ha, hav⟩
    cases hc : RankTable.cellAt r lm a with
    | none => rw [hc] at hav; cases hav
    | some w =>
      rw [hc] at hav
      have h1 : a = t ∧ w = v := by
        have := Option.some.inj hav
        exact ⟨congrArg Prod.fst this, congrArg Prod.snd this⟩
      rw [← h1.1, ← h1.2] at *
      exact ⟨ha, hc⟩
  · rintro ⟨ht, hv⟩
    exact ⟨t, ht, by rw [hv]; rfl⟩

lemma mem_lbScored (S : Table) (tools : List String) (latest : ℕ) (t : String) (v : ℚ) :
    (t, v) ∈ (lbCols S tools).filterMap
        (fun t2 => (Table.cellAt S latest t2).map (fun w => (t2, w))) ↔
      t ∈ lbCols S tools ∧ Table.cellAt S latest t = some v := by
  rw [List.mem_filterMap]
  constructor
  · rintro ⟨a, ha, hav⟩
    cases hc : Table.cellAt S latest a with
    | none => rw [hc] at hav; cases hav
    | some w =>
      rw [hc] at hav
      have h1 : a = t ∧ w = v := by
        have := Option.some.inj hav
        exact ⟨congrArg Prod.fst this, congrArg Prod.snd this⟩
      rw [← h1.1, ← h1.2] at *
      exact ⟨ha, hc⟩
  · rintro ⟨ht, hv⟩
    exact ⟨t, ht, by rw [hv]; rfl⟩

lemma minmax_norm_cellAt_none (s : Series) (m : ℕ) (h : s.cellAt m = none) :
    (minmax_norm s).cellAt m = none := by
  by_cases he : s.obs = ∅
  · rw [minmax_norm_of_obs_empty s he]
    exact h
  · by_cases hmx : s.valsF.max' (s.valsF_nonempty he) = s.valsF.min' (s.valsF_nonempty he)
    · unfold minmax_norm
      rw [dif_neg he, if_pos hmx, Series.cellAt_map, h]
      rfl
    · rw [minmax_norm_cellAt_of_ne s he hmx m, h]
      rfl

lemma zscore_norm_cellAt_none (sqrtFn : ℚ → ℚ) (s : Series) (m : ℕ)
    (h : s.cellAt m = none) : (zscore_norm sqrtFn s).cellAt m = none := by
  by_cases he : s.obs = ∅
  · rw [zscore_norm_of_obs_empty sqrtFn s he]
    exact h
  · by_cases hsd : sqrtFn s.pvar = 0
    · rw [zscore_norm_cellAt_of_sd_zero sqrtFn s he hsd m, h]
      rfl
    · rw [zscore_norm_eq_map sqrtFn s he hsd, Series.cellAt_map, h]
      rfl

lemma minmax_norm_getD_bounds (s : Series) (m : ℕ) :
    0 ≤ ((minmax_norm s).cellAt m).getD 0 ∧ ((minmax_norm s).cellAt m).getD 0 ≤ 1 := by
  cases h : (minmax_norm s).cellAt m with
  | none => simp
  | some x => simpa using minmax_norm_range s m x h

lemma compute_scores_cellAt (sqrtFn : ℚ → ℚ) (trends_df wiki_df : Table)
    (w_trends w_wiki : ℚ) (m : ℕ) (t : String)
    (hm : m ∈ trends_df.months ∪ wiki_df.months)
    (ht : t ∈ trends_df.cols ∪ wiki_df.cols) :
    (compute_scores sqrtFn trends_df wiki_df w_trends w_wiki).cellAt m t =
      some
        (w_trends *
            (if t ∈ trends_df.cols then
              ((minmax_norm (trends_df.col t)).cellAt m).getD 0
            else 0) +
          w_wiki *
            (if t ∈ wiki_df.cols then
              ((minmax_norm (zscore_norm sqrtFn (wiki_df.col t))).cellAt m).getD 0
            else 0)) := by
  unfold compute_scores
  rw [Table.cellAt_mk, if_pos ⟨hm, ht⟩]

-- Concrete tables and series used by the witnesses below.

def wH1 : Table :=
  ⟨{0, 1}, {"A", "B"},
    fun m t =>
      if m = 0 ∧ t = "A" then some 1
      else if m = 1 ∧ t = "B" then some 3
      else none⟩

def wF1 : Table :=
  ⟨{0}, {"A"}, fun m t => if m = 0 ∧ t = "A" then some 2 else none⟩

def wH6 : Table :=
  ⟨{0}, {"A"}, fun m t => if m = 0 ∧ t = "A" then some 5 else none⟩

def wF6 : Table :=
  ⟨{0}, {"A"}, fun m t => if m = 0 ∧ t = "A" then some 7 else none⟩

def wS4 : Series := ⟨{0, 1}, fun m => if m = 0 then some 50 else some 80⟩

def wS5a : Series := ⟨{0}, fun _ => some 4⟩

def wS5b : Series := ⟨{0}, fun _ => some 3⟩

def wS9 : Series := ⟨{0, 1}, fun m => if m = 0 then some 1 else some 3⟩

def wTr : Table := ⟨{0, 1}, {"A"}, fun m _ => if m = 0 then some 50 else some 80⟩

def wWk : Table := ⟨{0}, {"B"}, fun _ _ => some 100⟩

def wTr3 : Table := ⟨{0, 1}, {"A"}, fun m _ => if m = 0 then some 50 else none⟩

def wWk3 : Table := ⟨{0, 1}, {"A"}, fun _ _ => some 100⟩

def wT2 : Table :=
  ⟨{0}, {"A", "B", "C", "D"},
    fun _ t =>
      if t = "A" then some 10
      else if t = "B" then some 10
      else if t = "C" then some 7
      else if t = "D" then some 5
      else none⟩

def wR7 : RankTable :=
  ⟨{0}, ["A", "B", "C", "D", "E"],
    fun _ t =>
      if t = "A" then some 1
      else if t = "B" then some 2
      else if t = "C" then some 2
      else if t = "D" then some 4
      else none⟩

def wT8 : Table :=
  ⟨{0, 1}, {"A", "B", "C"},
    fun m t =>
      if m = 1 then (if t = "A" then some 2 else some 3)
      else some 1⟩

lemma wS5b_mean : wS5b.mean = 3 := by
  unfold Series.mean Series.total Series.obsCount
  rw [show wS5b.obs = {0} from by decide, Finset.sum_singleton,
    show wS5b.valAt 0 = 3 from by decide, Finset.card_singleton]
  norm_num

lemma wS5b_pvar : wS5b.pvar = 0 := by
  unfold Series.pvar
  rw [show wS5b.obs = {0} from by decide, Finset.sum_singleton,
    show wS5b.valAt 0 = 3 from by decide, wS5b_mean,
    show wS5b.obsCount = 1 from by decide]
  norm_num

lemma wS9_mean : wS9.mean = 2 := by
  unfold Series.mean Series.total Series.obsCount
  rw [show wS9.obs = {0, 1} from by decide,
    Finset.sum_pair (by decide : (0 : ℕ) ≠ 1),
    show wS9.valAt 0 = 1 from by decide, show wS9.valAt 1 = 3 from by decide,
    show (({0, 1} : Finset ℕ)).card = 2 from by decide]
  norm_num

lemma wS9_pvar : wS9.pvar = 1 := by
  unfold Series.pvar
  rw [show wS9.obs = {0, 1} from by decide,
    Finset.sum_pair (by decide : (0 : ℕ) ≠ 1),
    show wS9.valAt 0 = 1 from by decide, show wS9.valAt 1 = 3 from by decide,
    wS9_mean, show wS9.obsCount = 2 from by decide]
  norm_num

/-- C1: for every history table H and fresh table F and every (month, tool)
cell, a cell holding a non-null observation in both inputs takes F's value
in `merge_history H F`, and a cell observed in only one input keeps that
input's value. -/
theorem merge_history_freshness (H F : Table) (m : ℕ) (t : String) (a b : ℚ) :
    (H.cellAt m t = some a → F.cellAt m t = some b →
      (merge_history H F).cellAt m t = some b) ∧
    (H.cellAt m t = some a → F.cellAt m t = none →
      (merge_history H F).cellAt m t = some a) ∧
    (H.cellAt m t = none → F.cellAt m t = some b →
      (merge_history H F).cellAt m t = some b) := by
  refine ⟨?_, ?_, ?_⟩ <;> intro h1 h2 <;> rw [merge_history_cellAt, h2]
  exact h1

theorem merge_history_freshness_witness :
    (merge_history wH1 wF1).cellAt 0 "A" = some 2 ∧
    (merge_history wH1 wF1).cellAt 1 "B" = some 3 :=
  ⟨(merge_history_freshness wH1 wF1 0 "A" 1 2).1 (by decide) (by decide),
   (merge_history_freshness wH1 wF1 1 "B" 3 2).2.1 (by decide) (by decide)⟩

/-- C6: merging is idempotent in its second argument for tables over the
same key set: `merge_history H (merge_history H F) = merge_history H F`. -/
theorem merge_history_idem (H F : Table) (_h1 : H.months = F.months)
    (_h2 : H.cols = F.cols) :
    merge_history H (merge_history H F) = merge_history H F := by
  by_cases hE : H.isEmpty = true
  · have e1 : merge_history H F = F := by
      unfold merge_history
      rw [if_pos hE]
    rw [e1]
    exact e1
  · have hm : (merge_history H (merge_history H F)).months =
        (merge_history H F).months := by
      rw [merge_history_eq_of_ne H (merge_history H F) hE,
        merge_history_eq_of_ne H F hE]
      show H.months ∪ (H.months ∪ F.months) = H.months ∪ F.months
      rw [← Finset.union_assoc, Finset.union_self]
    have hc : (merge_history H (merge_history H F)).cols =
        (merge_history H F).cols := by
      rw [merge_history_eq_of_ne H (merge_history H F) hE,
        merge_history_eq_of_ne H F hE]
      show H.cols ∪ (H.cols ∪ F.cols) = H.cols ∪ F.cols
      rw [← Finset.union_assoc, Finset.union_self]
    have hcell : (merge_history H (merge_history H F)).cell =
        (merge_history H F).cell := by
      funext m t
      have e1 : (merge_history H (merge_history H F)).cell m t =
          match (merge_history H F).cellAt m t with
          | some v => some v
          | none => H.cellAt m t := by
        rw [merge_history_eq_of_ne H (merge_history H F) hE]
      have e2 : (merge_history H F).cell m t =
          match F.cellAt m t with
          | some v => some v
          | none => H.cellAt m t := by
        rw [merge_history_eq_of_ne H F hE]
      rw [e1, e2, merge_history_cellAt]
      cases hF : F.cellAt m t
      · cases hH : H.cellAt m t <;> rfl
      · rfl
    exact Table.ext hm hc hcell

theorem merge_history_idem_witness :
    wH6.months = wF6.months ∧ wH6.cols = wF6.cols ∧
      merge_history wH6 (merge_history wH6 wF6) = merge_history wH6 wF6 :=
  ⟨rfl, rfl, merge_history_idem wH6 wF6 rfl rfl⟩

/-- C3: `compute_scores` treats a cell absent from a source — whether the
tool has no column at all in that source or the column exists and that
month's cell is null — as contributing exactly 0 to that source's weighted
term: a tool with bounded-signal data but no unbounded-signal column (or a
null unbounded cell) scores exactly `w_trends * normalized_bounded`, and
symmetrically for the unbounded signal. -/
theorem compute_scores_absent_column (sqrtFn : ℚ → ℚ) (trends_df wiki_df : Table)
    (w_trends w_wiki : ℚ) (m : ℕ) (t : String) :
    (t ∈ trends_df.cols → t ∉ wiki_df.cols →
      m ∈ trends_df.months ∪ wiki_df.months →
      (compute_scores sqrtFn trends_df wiki_df w_trends w_wiki).cellAt m t =
        some (w_trends * ((minmax_norm (trends_df.col t)).cellAt m).getD 0)) ∧
    (t ∈ wiki_df.cols → t ∉ trends_df.cols →
      m ∈ trends_df.months ∪ wiki_df.months →
      (compute_scores sqrtFn trends_df wiki_df w_trends w_wiki).cellAt m t =
        some (w_wiki *
          ((minmax_norm (zscore_norm sqrtFn (wiki_df.col t))).cellAt m).getD 0)) ∧
    (t ∈ trends_df.cols → t ∈ wiki_df.cols →
      m ∈ trends_df.months ∪ wiki_df.months →
      Table.cellAt wiki_df m t = none →
      (compute_scores sqrtFn trends_df wiki_df w_trends w_wiki).cellAt m t =
        some (w_trends * ((minmax_norm (trends_df.col t)).cellAt m).getD 0)) ∧
    (t ∈ trends_df.cols → t ∈ wiki_df.cols →
      m ∈ trends_df.months ∪ wiki_df.months →
      Table.cellAt trends_df m t = none →
      (compute_scores sqrtFn trends_df wiki_df w_trends w_wiki).cellAt m t =
        some (w_wiki *
          ((minmax_norm (zscore_norm sqrtFn (wiki_df.col t))).cellAt m).getD 0)) := by
  refine ⟨?_, ?_, ?_, ?_⟩
  · intro ht hw hm
    rw [compute_scores_cellAt sqrtFn trends_df wiki_df w_trends w_wiki m t hm
      (Finset.mem_union_left _ ht), if_pos ht, if_neg hw, mul_zero, add_zero]
  · intro hw ht hm
    rw [compute_scores_cellAt sqrtFn trends_df wiki_df w_trends w_wiki m t hm
      (Finset.mem_union_right _ hw), if_pos hw, if_neg ht, mul_zero, zero_add]
  · intro ht hw hm habs
    have hwnone : (minmax_norm (zscore_norm sqrtFn (wiki_df.col t))).cellAt m = none := by
      apply minmax_norm_cellAt_none
      apply zscore_norm_cellAt_none
      show (if m ∈ wiki_df.months then Table.cellAt wiki_df m t else none) = none
      split
      · exact habs
      · rfl
    rw [compute_scores_cellAt sqrtFn trends_df wiki_df w_trends w_wiki m t hm
      (Finset.mem_union_left _ ht), if_pos ht, if_pos hw, hwnone]
    show some (_ + w_wiki * (0 : ℚ)) = _
    rw [mul_zero, add_zero]
  · intro ht hw hm habs
    have htnone : (minmax_norm (trends_df.col t)).cellAt m = none := by
      apply minmax_norm_cellAt_none
      show (if m ∈ trends_df.months then Table.cellAt trends_df m t else none) = none
      split
      · exact habs
      · rfl
    rw [compute_scores_cellAt sqrtFn trends_df wiki_df w_trends w_wiki m t hm
      (Finset.mem_union_left _ ht), if_pos ht, if_pos hw, htnone]
    show some (w_trends * (0 : ℚ) + _) = _
    rw [mul_zero, zero_add]

theorem compute_scores_absent_column_witness :
    (compute_scores id wTr wWk (6/10) (4/10)).cellAt 0 "A" =
      some ((6/10) * ((minmax_norm (wTr.col "A")).cellAt 0).getD 0) ∧
    (compute_scores id wTr3 wWk3 (6/10) (4/10)).cellAt 1 "A" =
      some ((4/10) *
        ((minmax_norm (zscore_norm id (wWk3.col "A"))).cellAt 1).getD 0) :=
  ⟨(compute_scores_absent_column id wTr wWk (6/10) (4/10) 0 "A").1
      (by decide) (by decide) (by decide),
   (compute_scores_absent_column id wTr3 wWk3 (6/10) (4/10) 1 "A").2.2.2
      (by decide) (by decide) (by decide) (by decide)⟩

/-- C10: with nonnegative weights, every cell of the score table over the
union of months and tools holds a non-null value lying between 0 and
`w_trends + w_wiki`. -/
theorem compute_scores_dense_bounded (sqrtFn : ℚ → ℚ) (trends_df wiki_df : Table)
    (w_trends w_wiki : ℚ) (m : ℕ) (t : String)
    (hwt : 0 ≤ w_trends) (hww : 0 ≤ w_wiki)
    (hm : m ∈ trends_df.months ∪ wiki_df.months)
    (ht : t ∈ trends_df.cols ∪ wiki_df.cols) :
    ∃ v, (compute_scores sqrtFn trends_df wiki_df w_trends w_wiki).cellAt m t = some v ∧
      0 ≤ v ∧ v ≤ w_trends + w_wiki := by
  rw [compute_scores_cellAt sqrtFn trends_df wiki_df w_trends w_wiki m t hm ht]
  refine ⟨_, rfl, ?_, ?_⟩
  all_goals
    have hA : 0 ≤ (if t ∈ trends_df.cols then
          ((minmax_norm (trends_df.col t)).cellAt m).getD 0 else 0) ∧
        (if t ∈ trends_df.cols then
          ((minmax_norm (trends_df.col t)).cellAt m).getD 0 else 0) ≤ 1 := by
      split
      · exact minmax_norm_getD_bounds _ m
      · norm_num
    have hB : 0 ≤ (if t ∈ wiki_df.cols then
          ((minmax_norm (zscore_norm sqrtFn (wiki_df.col t))).cellAt m).getD 0 else 0) ∧
        (if t ∈ wiki_df.cols then
          ((minmax_norm (zscore_norm sqrtFn (wiki_df.col t))).cellAt m).getD 0 else 0) ≤ 1 := by
      split
      · exact minmax_norm_getD_bounds _ m
      · norm_num
  · exact add_nonneg (mul_nonneg hwt hA.1) (mul_nonneg hww hB.1)
  · calc w_trends * _ + w_wiki * _ ≤ w_trends * 1 + w_wiki * 1 :=
          add_le_add (mul_le_mul_of_nonneg_left hA.2 hwt)
            (mul_le_mul_of_nonneg_left hB.2 hww)
    _ = w_trends + w_wiki := by ring

theorem compute_scores_dense_bounded_witness :
    ∃ v, (compute_scores id wTr wWk 6 4).cellAt 0 "B" = some v ∧
      0 ≤ v ∧ v ≤ 6 + 4 :=
  compute_scores_dense_bounded id wTr wWk 6 4 0 "B"
    (by decide) (by decide) (by decide) (by decide)

/-- C4: for a series with at least two distinct non-null values (max is not
min), every non-null output of `minmax_norm` lies in [0, 1], cells holding
the maximum map to exactly 1, cells holding the minimum map to exactly 0;
and a series with no non-null value is returned unchanged. -/
theorem minmax_norm_props (s : Series) (x y : ℚ)
    (hx : x ∈ s.valsF) (hy : y ∈ s.valsF) (hxy : x ≠ y) :
    (∀ m v, s.cellAt m = some v →
      ∃ w, (minmax_norm s).cellAt m = some w ∧ 0 ≤ w ∧ w ≤ 1) ∧
    (∀ m v, s.cellAt m = some v → (∀ u ∈ s.valsF, u ≤ v) →
      (minmax_norm s).cellAt m = some 1) ∧
    (∀ m v, s.cellAt m = some v → (∀ u ∈ s.valsF, v ≤ u) →
      (minmax_norm s).cellAt m = some 0) ∧
    (∀ s2 : Series, s2.obs = ∅ → minmax_norm s2 = s2) := by
  have hne : s.obs ≠ ∅ := by
    intro hc
    have : s.valsF = ∅ := by
      unfold Series.valsF
      rw [hc]
      rfl
    rw [this] at hx
    exact absurd hx (Finset.not_mem_empty x)
  have hmxmn : s.valsF.max' (s.valsF_nonempty hne) ≠ s.valsF.min' (s.valsF_nonempty hne) :=
    s.max'_ne_min' hne x y hx hy hxy
  refine ⟨?_, ?_, ?_, fun s2 h => minmax_norm_of_obs_empty s2 h⟩
  · intro m v hv
    have hcell : (minmax_norm s).cellAt m =
        some ((v - s.valsF.min' (s.valsF_nonempty hne)) /
          (s.valsF.max' (s.valsF_nonempty hne) - s.valsF.min' (s.valsF_nonempty hne))) := by
      rw [minmax_norm_cellAt_of_ne s hne hmxmn m, hv]
      rfl
    exact ⟨_, hcell, minmax_norm_range s m _ hcell⟩
  · intro m v hv hmax
    exact minmax_norm_cellAt_max s hne hmxmn m v hv hmax
  · intro m v hv hmin
    exact minmax_norm_cellAt_min s hne hmxmn m v hv hmin

theorem minmax_norm_props_witness :
    (50 : ℚ) ∈ wS4.valsF ∧ (80 : ℚ) ∈ wS4.valsF ∧
    (∀ m v, wS4.cellAt m = some v →
      ∃ w, (minmax_norm wS4).cellAt m = some w ∧ 0 ≤ w ∧ w ≤ 1) :=
  ⟨by decide, by decide, (minmax_norm_props wS4 50 80 (by decide) (by decide) (by decide)).1⟩

/-- C5: a constant non-null series min-max normalizes with every observed
cell sent to 0 and nulls kept null (the `s * 0` policy), and a series with
zero population standard deviation z-score normalizes the same way; no
division by zero occurs in either case. -/
theorem degenerate_norm_zero (sqrtFn : ℚ → ℚ) (s1 s2 : Series) (c : ℚ)
    (h1 : s1.obs ≠ ∅) (hc : ∀ m v, s1.cellAt m = some v → v = c)
    (h2 : s2.obs ≠ ∅) (hvar : s2.pvar = 0) (hsq : sqrtFn 0 = 0) :
    (∀ m, (minmax_norm s1).cellAt m = (s1.cellAt m).map (fun _ => 0)) ∧
    (∀ m, (zscore_norm sqrtFn s2).cellAt m = (s2.cellAt m).map (fun _ => 0)) :=
  ⟨minmax_norm_cellAt_of_const s1 c h1 hc,
   fun m => zscore_norm_cellAt_of_sd_zero sqrtFn s2 h2 (by rw [hvar, hsq]) m⟩

theorem degenerate_norm_zero_witness :
    (∀ m, (minmax_norm wS5a).cellAt m = (wS5a.cellAt m).map (fun _ => 0)) ∧
    (∀ m, (zscore_norm id wS5b).cellAt m = (wS5b.cellAt m).map (fun _ => 0)) :=
  degenerate_norm_zero id wS5a wS5b 4 (by decide)
    (by
      intro m v h
      unfold Series.cellAt wS5a at h
      by_cases hm : m ∈ ({0} : Finset ℕ)
      · rw [if_pos hm] at h
        exact (Option.some.inj h).symm
      · rw [if_neg hm] at h
        cases h)
    (by decide) wS5b_pvar rfl

/-- C9: min-max normalization is invariant under the z-score transform
whenever the population standard deviation is nonzero: the two-step
normalization of the unbounded signal agrees cell by cell with plain
min-max. -/
theorem zscore_minmax_invariance (sqrtFn : ℚ → ℚ) (s : Series)
    (hnn : 0 ≤ sqrtFn s.pvar) (hnz : sqrtFn s.pvar ≠ 0) (m : ℕ) :
    (minmax_norm (zscore_norm sqrtFn s)).cellAt m = (minmax_norm s).cellAt m :=
  minmax_zscore_cellAt sqrtFn s hnn hnz m

theorem zscore_minmax_invariance_witness :
    (minmax_norm (zscore_norm id wS9)).cellAt 0 = (minmax_norm wS9).cellAt 0 :=
  zscore_minmax_invariance id wS9
    (by rw [id_eq, wS9_pvar]; norm_num)
    (by rw [id_eq, wS9_pvar]; norm_num) 0

/-- C2: for every month row of the score table, `build_rank_history`
dense-ranks the negated scores: null scores get null ranks, equal scores
share one rank, the top score ranks 1, and the next distinct lower score
gets the immediately following integer. -/
theorem build_rank_history_dense_rank (S : Table)
    (cats : List (String × List String)) (cat : String) (tools : List String)
    (hS : S.isEmpty = false) (hmem : (cat, tools) ∈ cats) :
    ∃ R, (cat, R) ∈ build_rank_history S cats ∧ RankProps S tools R := by
  refine ⟨rank_category S tools, ?_, rank_category_props S tools⟩
  unfold build_rank_history
  rw [if_neg (by simp [hS])]
  exact List.mem_map.mpr ⟨(cat, tools), hmem, rfl⟩

theorem build_rank_history_dense_rank_witness :
    (∃ R, ("cat", R) ∈ build_rank_history wT2 [("cat", ["A", "B", "C", "D"])] ∧
        RankProps wT2 ["A", "B", "C", "D"] R) ∧
    RankTable.cellAt (rank_category wT2 ["A", "B", "C", "D"]) 0 "A" = some 1 ∧
    RankTable.cellAt (rank_category wT2 ["A", "B", "C", "D"]) 0 "B" = some 1 ∧
    RankTable.cellAt (rank_category wT2 ["A", "B", "C", "D"]) 0 "C" = some 2 ∧
    RankTable.cellAt (rank_category wT2 ["A", "B", "C", "D"]) 0 "D" = some 3 :=
  ⟨build_rank_history_dense_rank wT2 [("cat", ["A", "B", "C", "D"])] "cat"
      ["A", "B", "C", "D"] (by decide) (by decide),
   by decide, by decide, by decide, by decide⟩

lemma ascRank_total (a b : String × ℕ) : ascRank a b = true ∨ ascRank b a = true := by
  unfold ascRank
  rcases le_total a.2 b.2 with h | h
  · exact Or.inl (decide_eq_true h)
  · exact Or.inr (decide_eq_true h)

lemma ascRank_trans (a b c : String × ℕ) (h1 : ascRank a b = true)
    (h2 : ascRank b c = true) : ascRank a c = true := by
  unfold ascRank at h1 h2 ⊢
  exact decide_eq_true (le_trans (of_decide_eq_true h1) (of_decide_eq_true h2))

/-- C7: the rank-history view's current top-K selection keeps exactly
`min K
(number of non-null latest ranks)` tools, selects only tools with a
non-null rank in the latest month, and every selected tool's rank is at
most every unselected tool's rank. -/
theorem topk_selection (r : RankTable) (k lm : ℕ) (hmax : r.months.max = some lm) :
    (topk_tools r k).length = min k (latestObs r lm).length ∧
    (∀ t ∈ topk_tools r k, ∃ v, RankTable.cellAt r lm t = some v) ∧
    (∀ t t2 v v2, t ∈ topk_tools r k → t2 ∈ r.cols → t2 ∉ topk_tools r k →
      RankTable.cellAt r lm t = some v → RankTable.cellAt r lm t2 = some v2 →
      v ≤ v2) := by
  have htop : topk_tools r k = ((sSort ascRank (latestObs r lm)).map Prod.fst).take k := by
    unfold topk_tools
    rw [hmax]
  have hperm := sSort_perm ascRank (latestObs r lm)
  have hpair := sSort_pairwise ascRank ascRank_total ascRank_trans (latestObs r lm)
  refine ⟨?_, ?_, ?_⟩
  · rw [htop, List.length_take, List.length_map, hperm.length_eq]
  · intro t ht
    rw [htop] at ht
    rcases List.mem_map.mp (List.mem_of_mem_take ht) with ⟨p, hp, hpt⟩
    have hpl : p ∈ latestObs r lm := hperm.mem_iff.mp hp
    have hc := (mem_latestObs r lm p.1 p.2).mp (by rwa [Prod.mk.eta])
    exact ⟨p.2, hpt ▸ hc.2⟩
  · intro t t2 v v2 ht ht2mem ht2not hv hv2
    rw [htop] at ht ht2not
    rcases List.mem_iff_getElem.mp ht with ⟨i, hilen, hit⟩
    have hik : i < k := by
      rw [List.length_take] at hilen
      exact lt_of_lt_of_le hilen (min_le_left _ _)
    have hilen2 : i < (sSort ascRank (latestObs r lm)).length := by
      rw [List.length_take, List.length_map] at hilen
      exact lt_of_lt_of_le hilen (min_le_right _ _)
    rw [List.getElem_take, List.getElem_map] at hit
    have ht2l : (t2, v2) ∈ sSort ascRank (latestObs r lm) :=
      hperm.mem_iff.mpr ((mem_latestObs r lm t2 v2).mpr ⟨ht2mem, hv2⟩)
    rcases List.mem_iff_getElem.mp ht2l with ⟨j, hjlen, hjt⟩
    have hjk : k ≤ j := by
      by_contra hjk
      push_neg at hjk
      apply ht2not
      have hjlen2 : j < (((sSort ascRank (latestObs r lm)).map Prod.fst).take k).length := by
        rw [List.length_take, List.length_map]
        exact lt_min hjk hjlen
      have hval : (((sSort ascRank (latestObs r lm)).map Prod.fst).take k)[j] = t2 := by
        rw [List.getElem_take, List.getElem_map, hjt]
      exact hval ▸ List.getElem_mem hjlen2
    have hij : i < j := lt_of_lt_of_le hik hjk
    have hrel := List.pairwise_iff_getElem.mp hpair i j hilen2 hjlen hij
    rw [hjt] at hrel
    have hmem_i : (sSort ascRank (latestObs r lm))[i] ∈ latestObs r lm :=
      hperm.mem_iff.mp (List.getElem_mem hilen2)
    have hc := (mem_latestObs r lm ((sSort ascRank (latestObs r lm))[i]).1
      ((sSort ascRank (latestObs r lm))[i]).2).mp (by rwa [Prod.mk.eta])
    rw [hit] at hc
    have hv_eq : v = ((sSort ascRank (latestObs r lm))[i]).2 :=
      Option.some.inj (hv.symm.trans hc.2)
    unfold ascRank at hrel
    rw [hv_eq]
    exact of_decide_eq_true hrel

theorem topk_selection_witness :
    ((topk_tools wR7 3).length = min 3 (latestObs wR7 0).length ∧
      (∀ t ∈ topk_tools wR7 3, ∃ v, RankTable.cellAt wR7 0 t = some v) ∧
      (∀ t t2 v v2, t ∈ topk_tools wR7 3 → t2 ∈ wR7.cols →
        t2 ∉ topk_tools wR7 3 → RankTable.cellAt wR7 0 t = some v →
        RankTable.cellAt wR7 0 t2 = some v2 → v ≤ v2)) ∧
    topk_tools wR7 3 = ["A", "B", "C"] :=
  ⟨topk_selection wR7 3 0 (by decide), by decide⟩

lemma descScore_total (a b : String × ℚ) : descScore a b = true ∨ descScore b a = true := by
  unfold descScore
  rcases le_total b.2 a.2 with h | h
  · exact Or.inl (decide_eq_true h)
  · exact Or.inr (decide_eq_true h)

lemma descScore_trans (a b c : String × ℚ) (h1 : descScore a b = true)
    (h2 : descScore b c = true) : descScore a c = true := by
  unfold descScore at h1 h2 ⊢
  exact decide_eq_true (le_trans (of_decide_eq_true h2) (of_decide_eq_true h1))

lemma filterMap_pairs_length (cols : List String) (f : String → Option ℚ)
    (h : ∀ t ∈ cols, (f t).isSome = true) :
    (cols.filterMap (fun t => (f t).map (fun v => (t, v)))).length = cols.length := by
  induction cols with
  | nil => rfl
  | cons t cols ih =>
    cases hc : f t with
    | none =>
      have hme := h t (List.mem_cons_self t cols)
      rw [hc] at hme
      cases hme
    | some w =>
      rw [List.filterMap_cons_some (by rw [hc]; rfl), List.length_cons, List.length_cons,
        ih (fun t2 ht2 => h t2 (List.mem_cons_of_mem t ht2))]

lemma filterMap_filter_fst (cols : List String) (f : String → Option ℚ) (v : ℚ) :
    ((cols.filterMap (fun t => (f t).map (fun w => (t, w)))).filter
        (fun q => decide (q.2 = v))).map Prod.fst =
      cols.filter (fun t => decide (f t = some v)) := by
  induction cols with
  | nil => rfl
  | cons t cols ih =>
    cases hc : f t with
    | none =>
      rw [List.filterMap_cons_none (by rw [hc]; rfl), ih,
        List.filter_cons_of_neg (by simp [hc])]
    | some w =>
      rw [List.filterMap_cons_some (by rw [hc]; rfl)]
      by_cases hwv : w = v
      · rw [List.filter_cons_of_pos (by simp [hwv]), List.map_cons, ih,
          List.filter_cons_of_pos (by simp [hc, hwv])]
      · rw [List.filter_cons_of_neg (by simp [hwv]), ih,
          List.filter_cons_of_neg (by simp [hc, hwv])]

lemma mem_lbRow (S : Table) (tools : List String) (latest : ℕ) (e : String × Option ℚ)
    (he : e ∈ lbRow S tools latest) :
    e.1 ∈ lbCols S tools ∧ Table.cellAt S latest e.1 = e.2 := by
  unfold lbRow at he
  rcases List.mem_append.mp he with h | h
  · rcases List.mem_map.mp h with ⟨q, hq, hfe⟩
    have hq2 : q ∈ (lbCols S tools).filterMap
        (fun t => (Table.cellAt S latest t).map (fun v => (t, v))) :=
      (sSort_perm descScore _).mem_iff.mp hq
    have hc := (mem_lbScored S tools latest q.1 q.2).mp (by rwa [Prod.mk.eta])
    rw [← hfe]
    exact ⟨hc.1, by rw [hc.2]⟩
  · rcases List.mem_map.mp h with ⟨t, ht, hfe⟩
    have hm := List.mem_filter.mp ht
    rw [← hfe]
    exact ⟨hm.1, of_decide_eq_true hm.2⟩

lemma leaderboard_eq (S : Table) (tools : List String) (n latest : ℕ)
    (hmax : S.months.max = some latest) :
    leaderboard S tools n =
      (((List.range (lbRow S tools latest).length).zip (lbRow S tools latest)).map
        (fun p => (p.1 + 1, p.2))).take n := by
  unfold leaderboard
  rw [hmax]

lemma leaderboard_length (S : Table) (tools : List String) (n latest : ℕ)
    (hmax : S.months.max = some latest) :
    (leaderboard S tools n).length = min n (lbRow S tools latest).length := by
  rw [leaderboard_eq S tools n latest hmax, List.length_take, List.length_map,
    List.length_zip, List.length_range, min_self]

lemma leaderboard_getElem (S : Table) (tools : List String) (n latest : ℕ)
    (hmax : S.months.max = some latest) (i : ℕ)
    (h : i < (leaderboard S tools n).length) :
    ∃ hrow : i < (lbRow S tools latest).length,
      (leaderboard S tools n).get ⟨i, h⟩ =
        (i + 1, (lbRow S tools latest).get ⟨i, hrow⟩) := by
  have hlen := leaderboard_length S tools n latest hmax
  have hrow : i < (lbRow S tools latest).length :=
    lt_of_lt_of_le (hlen ▸ h) (min_le_right _ _)
  refine ⟨hrow, ?_⟩
  simp only [List.get_eq_getElem, leaderboard_eq S tools n latest hmax,
    List.getElem_take, List.getElem_map, List.getElem_zip, List.getElem_range]

/-- C8: the leaderboard takes the most recent month of the score table,
restricts to the category's tools with scores, sorts descending, assigns
display ranks 1..N by sorted position (truncating to the top N), and breaks
ties between equal scores by input column order (the per-score subsequence
of displayed tools is a prefix of the column order restricted to that
score). -/
theorem leaderboard_props (S : Table) (tools : List String) (n latest : ℕ)
    (hmax : S.months.max = some latest)
    (hdense : ∀ t ∈ lbCols S tools, (Table.cellAt S latest t).isSome = true) :
    (leaderboard S tools n).length = min n (lbCols S tools).length ∧
    (∀ i (h : i < (leaderboard S tools n).length),
      ((leaderboard S tools n).get ⟨i, h⟩).1 = i + 1) ∧
    (∀ e ∈ leaderboard S tools n,
      e.2.1 ∈ lbCols S tools ∧ Table.cellAt S latest e.2.1 = e.2.2) ∧
    (∀ i j (hi : i < (leaderboard S tools n).length)
        (hj : j < (leaderboard S tools n).length), i ≤ j →
      ∀ v w, ((leaderboard S tools n).get ⟨i, hi⟩).2.2 = some v →
        ((leaderboard S tools n).get ⟨j, hj⟩).2.2 = some w → w ≤ v) ∧
    (∀ v : ℚ,
      (((leaderboard S tools n).map (fun e => e.2)).filter
          (fun q => decide (q.2 = some v))).map Prod.fst <+:
        (lbCols S tools).filter
          (fun t => decide (Table.cellAt S latest t = some v))) := by
  have hnil : (lbCols S tools).filter
      (fun t => decide (Table.cellAt S latest t = none)) = [] := by
    rw [List.filter_eq_nil_iff]
    intro t ht hc
    have h1 := hdense t ht
    rw [of_decide_eq_true hc] at h1
    cases h1
  have hrow : lbRow S tools latest =
      (sSort descScore
        ((lbCols S tools).filterMap
          (fun t => (Table.cellAt S latest t).map (fun v => (t, v))))).map
        (fun p => (p.1, some p.2)) := by
    unfold lbRow
    rw [hnil, List.map_nil, List.append_nil]
  have hscoredlen : ((lbCols S tools).filterMap
      (fun t => (Table.cellAt S latest t).map (fun v => (t, v)))).length =
      (lbCols S tools).length :=
    filterMap_pairs_length (lbCols S tools) _ hdense
  have hrowlen : (lbRow S tools latest).length = (lbCols S tools).length := by
    rw [hrow, List.length_map, (sSort_perm descScore _).length_eq, hscoredlen]
  have hpairrow : (lbRow S tools latest).Pairwise
      (fun a b => ∀ v w, a.2 = some v → b.2 = some w → w ≤ v) := by
    rw [hrow, List.pairwise_map]
    refine (sSort_pairwise descScore descScore_total descScore_trans _).imp ?_
    intro a b hab v w hv hw
    unfold descScore at hab
    rw [← Option.some.inj hv, ← Option.some.inj hw]
    exact of_decide_eq_true hab
  refine ⟨?_, ?_, ?_, ?_, ?_⟩
  · rw [leaderboard_length S tools n latest hmax, hrowlen]
  · intro i h
    rcases leaderboard_getElem S tools n latest hmax i h with ⟨hri, hei⟩
    rw [hei]
  · intro e he
    rw [leaderboard_eq S tools n latest hmax] at he
    rcases List.mem_map.mp (List.mem_of_mem_take he) with ⟨p, hp, hpe⟩
    have hp2 : p.2 ∈ lbRow S tools latest := (List.of_mem_zip hp).2
    have := mem_lbRow S tools latest p.2 hp2
    rw [← hpe]
    exact this
  · intro i j hi hj hij v w hv hw
    rcases leaderboard_getElem S tools n latest hmax i hi with ⟨hri, hei⟩
    rcases leaderboard_getElem S tools n latest hmax j hj with ⟨hrj, hej⟩
    rw [hei] at hv
    rw [hej] at hw
    rcases lt_or_eq_of_le hij with hlt | heq
    · have hrel := List.pairwise_iff_getElem.mp hpairrow i j hri hrj hlt
      exact hrel v w (by simpa using hv) (by simpa using hw)
    · subst heq
      have : some v = some w := by
        rw [← hv, ← hw]
      rw [Option.some.inj this]
  · intro v
    have hmap2 : (leaderboard S tools n).map (fun e => e.2) =
        (lbRow S tools latest).take n := by
      rw [leaderboard_eq S tools n latest hmax, List.map_take, List.map_map]
      have hcomp : ((fun (e : ℕ × String × Option ℚ) => e.2) ∘
          (fun (p : ℕ × (String × Option ℚ)) => (p.1 + 1, p.2))) = Prod.snd := rfl
      rw [hcomp, List.map_snd_zip _ _ (by rw [List.length_range])]
    have hfilter_eq : ((lbRow S tools latest).filter
          (fun e => decide (e.2 = some v))).map Prod.fst =
        (lbCols S tools).filter
          (fun t => decide (Table.cellAt S latest t = some v)) := by
      rw [hrow, List.filter_map]
      have hpc : ((fun (e : String × Option ℚ) => decide (e.2 = some v)) ∘
          (fun (p : String × ℚ) => (p.1, some p.2))) =
          (fun (q : String × ℚ) => decide (q.2 = v)) := by
        funext q
        simp
      rw [hpc, sSort_filter descScore _ (by
        intro a b ha hb
        unfold descScore
        rw [of_decide_eq_true ha, of_decide_eq_true hb]
        exact decide_eq_true le_rfl) _]
      rw [List.map_map]
      have hcomp2 : (Prod.fst ∘ (fun (p : String × ℚ) => (p.1, some p.2))) =
          (Prod.fst : String × ℚ → String) := rfl
      rw [hcomp2]
      exact filterMap_filter_fst (lbCols S tools) _ v
    rw [hmap2, ← hfilter_eq]
    exact ((List.take_prefix n _).filter _).map _

theorem leaderboard_props_witness :
    (leaderboard wT8 ["A", "B", "C"] 5).length =
        min 5 (lbCols wT8 ["A", "B", "C"]).length ∧
    (∀ i (h : i < (leaderboard wT8 ["A", "B", "C"] 5).length),
      ((leaderboard wT8 ["A", "B", "C"] 5).get ⟨i, h⟩).1 = i + 1) ∧
    (∀ e ∈ leaderboard wT8 ["A", "B", "C"] 5,
      e.2.1 ∈ lbCols wT8 ["A", "B", "C"] ∧ Table.cellAt wT8 1 e.2.1 = e.2.2) ∧
    (∀ i j (hi : i < (leaderboard wT8 ["A", "B", "C"] 5).length)
        (hj : j < (leaderboard wT8 ["A", "B", "C"] 5).length), i ≤ j →
      ∀ v w, ((leaderboard wT8 ["A", "B", "C"] 5).get ⟨i, hi⟩).2.2 = some v →
        ((leaderboard wT8 ["A", "B", "C"] 5).get ⟨j, hj⟩).2.2 = some w → w ≤ v) ∧
    (∀ v : ℚ,
      (((leaderboard wT8 ["A", "B", "C"] 5).map (fun e => e.2)).filter
          (fun q => decide (q.2 = some v))).map Prod.fst <+:
        (lbCols wT8 ["A", "B", "C"]).filter
          (fun t => decide (Table.cellAt wT8 1 t = some v))) :=
  leaderboard_props wT8 ["A", "B", "C"] 5 1 (by decide)
    (by
      intro t ht
      have htc : t ∈ wT8.cols := (Finset.mem_sort (α := String) (· ≤ ·)).mp
        (List.mem_filter.mp ht).1
      unfold Table.cellAt
      rw [if_pos ⟨(by decide : (1 : ℕ) ∈ wT8.months), htc⟩]
      show (if (1 : ℕ) = 1 then (if t = "A" then some (2 : ℚ) else some 3)
        else some 1).isSome = true
      rw [if_pos rfl]
      by_cases hA : t = "A"
      · rw [if_pos hA]; rfl
      · rw [if_neg hA]; rfl)

end Aistracker
